import Mathlib

/-!
# Verification of the `secret-scan` core (`src/index.ts`, `src/entropy.ts`)

A shallow embedding of the detection-and-redaction engine of
`@sanity-labs/secret-scan`, together with proofs of the specified
properties.

Modelling conventions:

* JavaScript strings are modelled as `List Char` (`Str`); indices are `Nat`.
* The regular-expression engine is opaque to the core: each `Rule` carries
  an abstract `exec` field producing, for a given input, the sequence of
  raw matches that the `while ((match = regex.exec(input)))` loop of
  `scan` yields (including the zero-length-match `lastIndex++` guard,
  which only affects that iteration).  Allowlist regexes are abstract
  `Str → Bool` tests for the same reason.
* `Array.prototype.sort` (stable since ES2019) is modelled by
  `List.insertionSort`, which is stable; a stable sort's output is
  uniquely determined by the comparator and the input order, so this is
  extensionally faithful.
* `shannonEntropy` computes with IEEE doubles in JS; we model it exactly
  over `ℝ` and decide the `entropy < threshold` comparisons of `scan` and
  `isPlaceholder` with an exact integer procedure (`entropyLtQ`), proved
  equivalent to the real comparison (`entropyLtQ_iff`).
-/

abbrev Str := List Char

/-- Coerce a Lean string literal to the `List Char` model. -/
def strL (s : String) : Str := s.toList

/-- JS `String.prototype.toLowerCase`, restricted to the ASCII case
mapping used by the keyword/stopword data. -/
def lowerStr (s : Str) : Str := s.map Char.toLower

/-- First index at which `needle` occurs in `hay` (JS
`String.prototype.indexOf` without a `fromIndex`), `none` when absent. -/
def firstOcc (needle : Str) : Str → Option Nat
  | [] => if needle.isEmpty then some 0 else none
  | c :: t => if needle.isPrefixOf (c :: t) then some 0 else (firstOcc needle t).map (· + 1)

/-- JS `hay.includes(needle)`. -/
def containsSub (hay needle : Str) : Bool := (firstOcc needle hay).isSome

/-- JS `hay.indexOf(needle, fromIdx)` as an `Option`. -/
def jsIndexOfFrom (hay needle : Str) (fromIdx : Nat) : Option Nat :=
  (firstOcc needle (hay.drop fromIdx)).map (· + fromIdx)

/-- Last index of `c` in `s`, `none` when absent. -/
def lastIdxOf (c : Char) : Str → Option Nat
  | [] => none
  | a :: t =>
    match lastIdxOf c t with
    | some j => some (j + 1)
    | none => if a == c then some 0 else none

/-- JS `s.lastIndexOf(c, fromIdx)`: last occurrence at position `≤ fromIdx`
(the ECMA clamp of a negative `fromIndex` to `0` is reproduced by the
truncated `Nat` subtraction at the call site). -/
def jsLastIndexOfChar (s : Str) (c : Char) (fromIdx : Nat) : Option Nat :=
  lastIdxOf c (s.take (fromIdx + 1))

/-- JS `s.indexOf(c, fromIdx)` for a single character. -/
def jsIndexOfCharFrom (s : Str) (c : Char) (fromIdx : Nat) : Option Nat :=
  jsIndexOfFrom s [c] fromIdx

/-- `getLineForIndex` (`src/index.ts:164-169`): the full line of `input`
containing position `index`. -/
def getLineForIndex (input : Str) (index : Nat) : Str :=
  let lineStart :=
    match jsLastIndexOfChar input '\n' (index - 1) with
    | some k => k + 1
    | none => 0
  let lineEnd :=
    match jsIndexOfCharFrom input '\n' index with
    | some k => k
    | none => input.length
  (input.take lineEnd).drop lineStart

/-! ### Soundness and completeness of `firstOcc` -/

theorem firstOcc_sound {needle hay : Str} {k : Nat} (h : firstOcc needle hay = some k) :
    (hay.drop k).take needle.length = needle := by
  induction hay generalizing k with
  | nil =>
    simp only [firstOcc] at h
    split at h
    · cases h
      simp_all [List.isEmpty_iff]
    · cases h
  | cons c t ih =>
    simp only [firstOcc] at h
    split at h
    · cases h
      rename_i hp
      rw [ List.isPrefixOf_iff_prefix] at hp
      simpa using ( List.prefix_iff_eq_take.mp hp).symm
    · rcases Option.map_eq_some'.mp h with ⟨j, hj, rfl⟩
      simpa using ih hj

theorem firstOcc_complete {needle hay : Str} {k : Nat}
    (h : (hay.drop k).take needle.length = needle) : (firstOcc needle hay).isSome = true := by
  induction hay generalizing k with
  | nil =>
    simp only [List.drop_nil, List.take_nil] at h
    simp [firstOcc, ← h, List.isEmpty_iff]
  | cons c t ih =>
    simp only [firstOcc]
    split
    · rfl
    · rename_i hp
      cases k with
      | zero =>
        exfalso
        apply hp
        rw [ List.isPrefixOf_iff_prefix]
        exact h ▸ List.take_prefix _ _
      | succ j =>
        simp only [List.drop_succ_cons] at h
        simpa using ih h

theorem containsSub_iff {hay needle : Str} :
    containsSub hay needle = true ↔ ∃ k, (hay.drop k).take needle.length = needle := by
  constructor
  · intro h
    rcases Option.isSome_iff_exists.mp h with ⟨k, hk⟩
    exact ⟨k, firstOcc_sound hk⟩
  · rintro ⟨k, hk⟩
    exact firstOcc_complete hk

/-! ### Shannon entropy (`src/entropy.ts`)

`shannonEntropy` is the exact real-valued function the JS code computes
with IEEE doubles: `H(s) = -Σ p(c)·log2(p(c))` over the character
frequency distribution.  `entropyLtQ s t` decides `shannonEntropy s < t`
for a rational threshold `t` exactly, by clearing denominators and
logarithms into an integer comparison; `scan` and `isPlaceholder` use it
for their `entropy < threshold` tests. -/

noncomputable def shannonEntropy (s : Str) : ℝ :=
  if s.length = 0 then 0
  else - Finset.sum s.toFinset (fun c =>
    ((s.count c : ℝ) / s.length) * Real.logb 2 ((s.count c : ℝ) / s.length))

/-- `∏ c, count c ^ count c` over the distinct characters of `s`. -/
def prodCC (s : Str) : Nat := Finset.prod s.toFinset (fun c => s.count c ^ s.count c)

/-- Exact decision of `shannonEntropy s < t`. -/
def entropyLtQ (s : Str) (t : ℚ) : Bool :=
  if s.length = 0 then decide (0 < t)
  else if t ≤ 0 then false
  else
    decide ((s.length ^ s.length) ^ t.den <
      2 ^ (t.num.toNat * s.length) * prodCC s ^ t.den)

theorem length_eq_sum_count (s : Str) :
    s.length = Finset.sum s.toFinset (fun c => s.count c) := by
  simp

theorem count_pos_of_mem_toFinset {s : Str} {c : Char} (h : c ∈ s.toFinset) :
    0 < s.count c := by
  rw [List.count_pos_iff]
  simpa using h

theorem prodCC_pos (s : Str) : 0 < prodCC s := by
  unfold prodCC
  apply Finset.prod_pos
  intro c hc
  exact Nat.pos_pow_of_pos _ (count_pos_of_mem_toFinset hc)

theorem shannonEntropy_nonneg (s : Str) : 0 ≤ shannonEntropy s := by
  unfold shannonEntropy
  split
  · exact le_rfl
  · rename_i hlen
    rw [← Finset.sum_neg_distrib]
    apply Finset.sum_nonneg
    intro c hc
    have hcpos : (0 : ℝ) < s.count c := by
      exact_mod_cast count_pos_of_mem_toFinset hc
    have hnpos : (0 : ℝ) < s.length := by
      have : 0 < s.length := Nat.pos_of_ne_zero hlen
      exact_mod_cast this
    have hple : (s.count c : ℝ) / s.length ≤ 1 := by
      rw [div_le_one hnpos]
      exact_mod_cast List.count_le_length c s
    have hppos : (0 : ℝ) < (s.count c : ℝ) / s.length := div_pos hcpos hnpos
    have hlog : Real.logb 2 ((s.count c : ℝ) / s.length) ≤ 0 :=
      Real.logb_nonpos one_lt_two hppos.le hple
    nlinarith

theorem cast_prodCC (s : Str) :
    ((prodCC s : ℕ) : ℝ) = Finset.prod s.toFinset (fun c => (s.count c : ℝ) ^ s.count c) := by
  unfold prodCC
  push_cast
  rfl

theorem mul_length_shannonEntropy {s : Str} (h : s.length ≠ 0) :
    (s.length : ℝ) * shannonEntropy s =
      Real.logb 2 ((s.length : ℝ) ^ s.length) - Real.logb 2 ((prodCC s : ℕ) : ℝ) := by
  have hn : (0 : ℝ) < (s.length : ℝ) := by exact_mod_cast Nat.pos_of_ne_zero h
  have hsum : (s.length : ℝ) = Finset.sum s.toFinset (fun c => (s.count c : ℝ)) := by
    exact_mod_cast congrArg (Nat.cast (R := ℝ)) (length_eq_sum_count s)
  have key : ∀ c ∈ s.toFinset,
      (s.length : ℝ) * (((s.count c : ℝ) / s.length) * Real.logb 2 ((s.count c : ℝ) / s.length))
        = (s.count c : ℝ) * Real.logb 2 (s.count c)
          - (s.count c : ℝ) * Real.logb 2 (s.length) := by
    intro c hc
    have hcpos : (0 : ℝ) < (s.count c : ℝ) := by exact_mod_cast count_pos_of_mem_toFinset hc
    rw [Real.logb_div (ne_of_gt hcpos) (ne_of_gt hn)]
    field_simp
    ring
  have hlogprod : Real.logb 2 ((prodCC s : ℕ) : ℝ)
      = Finset.sum s.toFinset (fun c => (s.count c : ℝ) * Real.logb 2 (s.count c)) := by
    rw [cast_prodCC]
    rw [Real.logb_prod _ _ (fun c hc => by
      have hcpos : 0 < s.count c := count_pos_of_mem_toFinset hc
      have : (0 : ℝ) < (s.count c : ℝ) ^ s.count c := by positivity
      exact ne_of_gt this)]
    exact Finset.sum_congr rfl (fun c _ => by rw [Real.logb_pow])
  rw [shannonEntropy, if_neg h, hlogprod, Real.logb_pow]
  rw [mul_neg, Finset.mul_sum, Finset.sum_congr rfl key,
    Finset.sum_sub_distrib, ← Finset.sum_mul, ← hsum]
  ring

/-- `entropyLtQ` decides the real comparison `shannonEntropy s < t` exactly. -/
theorem entropyLtQ_iff (s : Str) (t : ℚ) :
    entropyLtQ s t = true ↔ shannonEntropy s < (t : ℝ) := by
  unfold entropyLtQ
  by_cases h0 : s.length = 0
  · rw [if_pos h0, shannonEntropy, if_pos h0]
    simp only [decide_eq_true_eq]
    exact_mod_cast Iff.rfl
  · rw [if_neg h0]
    by_cases ht : t ≤ 0
    · rw [if_pos ht]
      constructor
      · intro hc
        cases hc
      · intro hc
        exfalso
        have h1 : (t : ℝ) ≤ 0 := by exact_mod_cast ht
        have h2 := shannonEntropy_nonneg s
        linarith
    · rw [if_neg ht]
      push_neg at ht
      simp only [decide_eq_true_eq]
      have hn : (0 : ℝ) < (s.length : ℝ) := by exact_mod_cast Nat.pos_of_ne_zero h0
      have hprod : (0 : ℝ) < ((prodCC s : ℕ) : ℝ) := by exact_mod_cast prodCC_pos s
      have hnn : (0 : ℝ) < ((s.length : ℝ) ^ s.length) := by positivity
      have hnum : (0 : ℤ) < t.num := Rat.num_pos.mpr ht
      have hxpos : (0 : ℝ) < ((s.length : ℝ) ^ s.length) / ((prodCC s : ℕ) : ℝ) :=
        div_pos hnn hprod
      have h2nt : (0 : ℝ) ≤ (2 : ℝ) ^ ((s.length : ℝ) * (t : ℝ)) :=
        Real.rpow_nonneg (by norm_num) _
      have hR : ((2 : ℝ) ^ ((s.length : ℝ) * (t : ℝ))) ^ t.den
          = (2 : ℝ) ^ (t.num.toNat * s.length) := by
        rw [← Real.rpow_natCast ((2 : ℝ) ^ ((s.length : ℝ) * (t : ℝ))) t.den,
          ← Real.rpow_mul (by norm_num), ← Real.rpow_natCast 2 (t.num.toNat * s.length)]
        congr 1
        have hden : (t : ℝ) * (t.den : ℝ) = (t.num : ℝ) := by
          rw [Rat.cast_def]
          field_simp
        have htn : ((t.num.toNat : ℕ) : ℝ) = (t.num : ℝ) := by
          exact_mod_cast Int.toNat_of_nonneg hnum.le
        push_cast
        rw [htn]
        linear_combination (s.length : ℝ) * hden
      have hchain : shannonEntropy s < (t : ℝ) ↔
          (s.length ^ s.length) ^ t.den < 2 ^ (t.num.toNat * s.length) * prodCC s ^ t.den := by
        rw [← mul_lt_mul_left hn, mul_length_shannonEntropy h0,
          ← Real.logb_div (ne_of_gt hnn) (ne_of_gt hprod),
          Real.logb_lt_iff_lt_rpow one_lt_two hxpos,
          ← pow_lt_pow_iff_left₀ hxpos.le h2nt t.den_pos.ne',
          hR, div_pow, div_lt_iff₀ (by positivity)]
        exact_mod_cast Iff.rfl
      rw [hchain]

theorem toFinset_replicate_ne_zero {n : ℕ} {c : Char} (h : n ≠ 0) :
    (List.replicate n c).toFinset = {c} := by
  ext x
  simp [List.mem_replicate, h]

/-- A run of a single repeated character has zero entropy. -/
theorem shannonEntropy_replicate (n : ℕ) (c : Char) :
    shannonEntropy (List.replicate n c) = 0 := by
  unfold shannonEntropy
  rcases Nat.eq_zero_or_pos n with h | h
  · simp [h]
  · have hne : n ≠ 0 := Nat.pos_iff_ne_zero.mp h
    rw [if_neg (by simpa using hne)]
    rw [toFinset_replicate_ne_zero hne, Finset.sum_singleton, List.count_replicate_self,
      List.length_replicate]
    have hdiv : ((n : ℝ)) / (n : ℝ) = 1 := div_self (by exact_mod_cast hne)
    rw [hdiv, Real.logb_one]
    ring

/-- A string whose distinct characters all occur equally often has entropy
`log2` of the number of distinct characters. -/
theorem shannonEntropy_uniform {s : Str} {k : ℕ} (hs : s ≠ []) (hk : 0 < k)
    (hcount : ∀ c ∈ s.toFinset, s.count c = k) :
    shannonEntropy s = Real.logb 2 (s.toFinset.card) := by
  have hlen : s.length = s.toFinset.card * k := by
    rw [length_eq_sum_count, Finset.sum_congr rfl hcount, Finset.sum_const, smul_eq_mul]
  have hmne : s.toFinset.card ≠ 0 := by
    have : s.toFinset.Nonempty := by
      cases s with
      | nil => exact absurd rfl hs
      | cons a t => exact ⟨a, by simp⟩
    exact Finset.card_pos.mpr this |>.ne'
  have hL : s.length ≠ 0 := by
    rw [hlen]
    exact Nat.mul_ne_zero hmne hk.ne'
  have hmR : ((s.toFinset.card : ℕ) : ℝ) ≠ 0 := by exact_mod_cast hmne
  have hkR : ((k : ℕ) : ℝ) ≠ 0 := by exact_mod_cast hk.ne'
  unfold shannonEntropy
  rw [if_neg hL]
  have hterm : ∀ c ∈ s.toFinset,
      ((s.count c : ℝ) / s.length) * Real.logb 2 ((s.count c : ℝ) / s.length)
        = ((s.toFinset.card : ℝ))⁻¹ * Real.logb 2 (((s.toFinset.card : ℝ))⁻¹) := by
    intro c hc
    have hp : ((s.count c : ℝ)) / s.length = ((s.toFinset.card : ℝ))⁻¹ := by
      rw [hcount c hc, hlen]
      push_cast
      field_simp
      ring
    rw [hp]
  rw [Finset.sum_congr rfl hterm, Finset.sum_const, nsmul_eq_mul, Real.logb_inv]
  field_simp

/-! ### Data model (`src/rules.ts` interfaces and `src/index.ts` types) -/

inductive Confidence
  | high
  | medium
deriving DecidableEq

/-- `AllowlistRegex.target : 'match' | 'line'` (optional); `none` (an
absent field) selects the extracted secret value. -/
inductive RegexTarget
  | matchText
  | line
deriving DecidableEq

/-- `AllowlistRegex`: the regex is abstracted to its `test` predicate. -/
structure AllowlistRegex where
  test : Str → Bool
  target : Option RegexTarget := none

structure RuleAllowlist where
  regexes : Option (List AllowlistRegex) := none
  stopwords : Option (List Str) := none

structure GlobalAllowlist where
  regexes : List (Str → Bool)
  stopwords : List Str

/-- One result of `regex.exec(input)`: the match position `index`, the
matched text `match[0]`, and the capture groups `match[1..]` (`none`
models a group that did not participate, i.e. JS `undefined`). -/
structure RawMatch where
  index : Nat
  matched : Str
  groups : List (Option Str)
deriving DecidableEq

/-- A detection rule.  `exec input` abstracts the sequence of matches the
`while ((match = regex.exec(input)))` loop of `scan` yields on `input`
(`src/index.ts:213-252`, including its zero-length-match guard), since
the regex engine is external to the core. -/
structure Rule where
  id : String
  label : String
  exec : Str → List RawMatch
  keywords : List Str
  entropy : Option ℚ := none
  secretGroup : Option Nat := none
  allowlist : Option RuleAllowlist := none

/-- The public `Secret` record (`src/index.ts:18-31`). -/
structure Secret where
  rule : String
  label : String
  text : Str
  confidence : Confidence
  start : Nat
  «end» : Nat
deriving DecidableEq

/-! ### Placeholder detection (`src/index.ts:57-99`) -/

/-- `MIN_SUFFIX_ENTROPY` (`src/index.ts:63`). -/
def MIN_SUFFIX_ENTROPY : ℚ := 3 / 2

/-- `KNOWN_PREFIXES` (`src/index.ts:66-77`). -/
def KNOWN_PREFIXES : List Str := [
  strL "sk-proj-", strL "sk-svcacct-", strL "sk-admin-", strL "sk-ant-api03-",
  strL "sk_live_", strL "sk_test_", strL "pk_live_", strL "pk_test_",
  strL "rk_live_", strL "rk_test_",
  strL "ghp_", strL "gho_", strL "ghu_", strL "ghs_", strL "ghr_", strL "github_pat_",
  strL "xoxb-", strL "xoxp-", strL "xoxa-", strL "xoxo-", strL "xapp-",
  strL "glpat-", strL "glsa_",
  strL "npm_", strL "lin_api_",
  strL "gsk_", strL "r8_", strL "sbp_", strL "sk_",
  strL "SG.", strL "dp.pt.", strL "PMAK-",
  strL "signkey-prod-", strL "signkey-test-", strL "signkey-staging-",
  strL "sk-", strL "AKIA"]

/-- The `longestPrefix` accumulation loop of `isPlaceholder`
(`src/index.ts:81-86`). -/
def longestKnownPrefix (secret : Str) : Str :=
  KNOWN_PREFIXES.foldl
    (fun lp p => if p.isPrefixOf secret && lp.length < p.length then p else lp) []

/-- `isPlaceholder` (`src/index.ts:79-99`). -/
def isPlaceholder (secret : Str) : Bool :=
  let longestPre := longestKnownPrefix secret
  if longestPre.isEmpty then false
  else
    let suffix := secret.drop longestPre.length
    if suffix.isEmpty then true
    else entropyLtQ suffix MIN_SUFFIX_ENTROPY

/-! ### Allowlists (`src/index.ts:101-140`) -/

/-- `isGlobalAllowlisted` (`src/index.ts:103-116`). -/
def isGlobalAllowlisted (ga : GlobalAllowlist) (secret : Str) : Bool :=
  ga.regexes.any (fun rx => rx secret) ||
    (let lower := lowerStr secret
     ga.stopwords.any (fun stopword => lower == lowerStr stopword))

/-- The ternary `target === 'line' ? line : (target === 'match' ? fullMatch
: secret)` of `isRuleAllowlisted` (`src/index.ts:126`). -/
def allowTargetText (ar : AllowlistRegex) (secret fullMatch line : Str) : Str :=
  match ar.target with
  | some .line => line
  | some .matchText => fullMatch
  | none => secret

/-- `isRuleAllowlisted` (`src/index.ts:120-140`). -/
def isRuleAllowlisted (rule : Rule) (secret fullMatch line : Str) : Bool :=
  match rule.allowlist with
  | none => false
  | some al =>
    ((al.regexes.getD []).any (fun ar =>
      ar.test (allowTargetText ar secret fullMatch line)))
    || ((al.stopwords.getD []).any (fun stopword =>
      containsSub (lowerStr secret) (lowerStr stopword)))

/-! ### Core scanning (`src/index.ts:142-282`) -/

/-- JS `match[i]` on a `RawMatch`. -/
def matchGroup (m : RawMatch) : Nat → Option Str
  | 0 => some m.matched
  | i + 1 => m.groups.getD i none

/-- `extractSecret` (`src/index.ts:171-181`). -/
def extractSecret (rule : Rule) (m : RawMatch) : Str :=
  let groupIndex := rule.secretGroup.getD 1
  match matchGroup m groupIndex with
  | some s => s
  | none =>
    match m.groups.findSome? id with
    | some s => s
    | none => m.matched

/-- `GENERIC_RULE_IDS` (`src/index.ts:183`). -/
def GENERIC_RULE_IDS : List String := ["generic-sk-secret", "bearer-token", "sanity-bare"]

/-- The per-match body of the phase-1 collection loop of `scan`
(`src/index.ts:214-252`): extract the secret text, locate its offset
(with the defensive fallback to `match.index`), apply the entropy,
placeholder and allowlist filters, and build the candidate `Secret`
pushed into `allMatches`; `none` models a `continue`. -/
def processMatch (ga : GlobalAllowlist) (input : Str) (rule : Rule) (m : RawMatch) :
    Option Secret :=
  let secret := extractSecret rule m
  if secret.isEmpty then none
  else
    let start :=
      match jsIndexOfFrom input secret m.index with
      | some i => i
      | none => m.index
    let stop := start + secret.length
    let entropyRejected :=
      match rule.entropy with
      | some threshold => entropyLtQ secret threshold
      | none => false
    if entropyRejected then none
    else if isPlaceholder secret then none
    else if isGlobalAllowlisted ga secret then none
    else if isRuleAllowlisted rule secret m.matched (getLineForIndex input m.index) then none
    else
      some {
        rule := rule.id
        label := rule.label
        text := secret
        confidence := if GENERIC_RULE_IDS.contains rule.id then .medium else .high
        start := start
        «end» := stop }

/-- Append `r` under key `kw` in the insertion-ordered keyword index
(JS `Map` semantics: keys keep first-insertion order, values append). -/
def upsertKeyword (idx : List (Str × List Rule)) (kw : Str) (r : Rule) :
    List (Str × List Rule) :=
  match idx with
  | [] => [(kw, [r])]
  | (k, rs) :: rest =>
    if k == kw then (k, rs ++ [r]) :: rest
    else (k, rs) :: upsertKeyword rest kw r

/-- The module-level `keywordIndex` map (`src/index.ts:38-55`), as an
insertion-ordered association list. -/
def keywordIndex (rules : List Rule) : List (Str × List Rule) :=
  rules.foldl
    (fun idx r =>
      if r.keywords.isEmpty then idx
      else r.keywords.foldl (fun idx kw => upsertKeyword idx (lowerStr kw) r) idx)
    []

/-- The module-level `rulesWithoutKeywords` list (`src/index.ts:39-43`). -/
def rulesWithoutKeywords (rules : List Rule) : List Rule :=
  rules.filter (fun r => r.keywords.isEmpty)

/-- `getCandidateRules` (`src/index.ts:144-162`).  The JS `Set<Rule>`
deduplicates by object identity; rule ids are unique across the corpus
(asserted by the repository's rule tests), so we deduplicate by `id`. -/
def getCandidateRules (rules : List Rule) (inputLower : Str) : List Rule :=
  (keywordIndex rules).foldl
    (fun cands entry =>
      if containsSub inputLower entry.1 then
        entry.2.foldl
          (fun cands r =>
            if cands.any (fun c => c.id == r.id) then cands else cands ++ [r])
          cands
      else cands)
    (rulesWithoutKeywords rules)

/-- The phase-2 comparator (`src/index.ts:258-262`): span length
descending, ties by start ascending.  `candBefore a b` holds exactly when
the JS comparator returns a value `≤ 0` on `(a, b)`. -/
def candBefore (a b : Secret) : Prop :=
  b.«end» - b.start < a.«end» - a.start ∨
    (a.«end» - a.start = b.«end» - b.start ∧ a.start ≤ b.start)

instance : DecidableRel candBefore := fun a b => by
  unfold candBefore
  infer_instance

instance : IsTotal Secret candBefore := ⟨fun a b => by
  unfold candBefore
  omega⟩

instance : IsTrans Secret candBefore := ⟨fun a b c => by
  unfold candBefore
  omega⟩

/-- The final output comparator (`src/index.ts:279`): start ascending. -/
def startLE (a b : Secret) : Prop := a.start ≤ b.start

instance : DecidableRel startLE := fun a b => by
  unfold startLE
  infer_instance

instance : IsTotal Secret startLE := ⟨fun a b => by
  unfold startLE
  omega⟩

instance : IsTrans Secret startLE := ⟨fun a b c => by
  unfold startLE
  omega⟩

/-- The greedy accept loop of phase 2 (`src/index.ts:264-276`).
`accepted` plays the role of both `secrets` and `matchedRanges`, which
the JS code grows in lockstep. -/
def acceptNonOverlapping (accepted : List Secret) : List Secret → List Secret
  | [] => accepted
  | c :: rest =>
    if accepted.any (fun r => c.start < r.«end» && c.«end» > r.start) then
      acceptNonOverlapping accepted rest
    else acceptNonOverlapping (accepted ++ [c]) rest

/-- Phase 2 of `scan` (`src/index.ts:255-276`): stable sort by the
length-descending comparator, then greedy interval acceptance.
(`Array.prototype.sort` is stable; a stable sort agrees extensionally
with stable insertion sort.) -/
def resolveOverlaps (pool : List Secret) : List Secret :=
  acceptNonOverlapping [] (pool.insertionSort candBefore)

/-- `scan` (`src/index.ts:200-282`). -/
def scan (ga : GlobalAllowlist) (rules : List Rule) (input : Str) : List Secret :=
  if input.isEmpty then []
  else
    let inputLower := lowerStr input
    let candidates := getCandidateRules rules inputLower
    let allMatches :=
      candidates.flatMap (fun r => (r.exec input).filterMap (processMatch ga input r))
    (resolveOverlaps allMatches).insertionSort startLE

/-- `redact` (`src/index.ts:293-309`): right-to-left splicing of the
replacer's output over each secret's span. -/
def redact (ga : GlobalAllowlist) (rules : List Rule) (input : Str)
    (replacer : Secret → Str) : Str :=
  let secrets := scan ga rules input
  if secrets.isEmpty then input
  else
    secrets.foldr
      (fun secret result =>
        result.take secret.start ++ replacer secret ++ result.drop secret.«end»)
      input

/-! ### Genuineness of raw matches

`scan` is proved correct for any rule whose `exec` oracle returns genuine
regex matches: `match[0]` occurs at `match.index`, and every
participating capture group occurs inside the matched region (we only
require it to occur at or after `match.index`, which is weaker). -/

/-- `m` is a genuine regex match of `input`. -/
def goodMatch (input : Str) (m : RawMatch) : Bool :=
  m.matched.isPrefixOf (input.drop m.index) &&
    m.groups.all (fun g => g.all (fun t => containsSub (input.drop m.index) t))

theorem extractSecret_occurs {input : Str} {m : RawMatch} (rule : Rule)
    (h : goodMatch input m = true) :
    containsSub (input.drop m.index) (extractSecret rule m) = true := by
  have hm : containsSub (input.drop m.index) m.matched = true := by
    have hp := (Bool.and_eq_true _ _).mp h |>.1
    rw [ List.isPrefixOf_iff_prefix] at hp
    apply firstOcc_complete (k := 0)
    simpa using ( List.prefix_iff_eq_take.mp hp).symm
  have hgroups : ∀ g ∈ m.groups, ∀ t, g = some t →
      containsSub (input.drop m.index) t = true := by
    intro g hg t ht
    have hall := (Bool.and_eq_true _ _).mp h |>.2
    rw [List.all_eq_true] at hall
    have := hall g hg
    subst ht
    simpa [Option.all] using this
  unfold extractSecret
  rcases hgi : matchGroup m (rule.secretGroup.getD 1) with _ | s
  · simp only [hgi]
    rcases hfs : m.groups.findSome? id with _ | s
    · simp only [hfs]
      exact hm
    · simp only [hfs]
      rcases List.exists_of_findSome?_eq_some hfs with ⟨g, hg, hgs⟩
      exact hgroups g hg s hgs
  · simp only [hgi]
    cases hi : rule.secretGroup.getD 1 with
    | zero =>
      rw [hi] at hgi
      simp only [matchGroup] at hgi
      cases hgi
      exact hm
    | succ i =>
      rw [hi] at hgi
      simp only [matchGroup] at hgi
      have hmem : some s ∈ m.groups := by
        rcases Nat.lt_or_ge i m.groups.length with hil | hil
        · have hget : m.groups.getD i none = m.groups.get ⟨i, hil⟩ := by
            simp [List.getD_eq_getElem?_getD, List.getElem?_eq_getElem hil]
          rw [hget] at hgi
          rw [← hgi]
          exact List.get_mem m.groups i hil
        · exfalso
          rw [List.getD_eq_default _ _ hil] at hgi
          cases hgi
      exact hgroups _ hmem s rfl

theorem occurrence_bound {l needle : Str} {a : Nat} (hne : needle ≠ [])
    (h : (l.drop a).take needle.length = needle) : a + needle.length ≤ l.length := by
  have hlen := congrArg List.length h
  simp only [List.length_take, List.length_drop] at hlen
  have hpos : 0 < needle.length := List.length_pos.mpr hne
  omega

theorem processMatch_basic {ga : GlobalAllowlist} {input : Str} {rule : Rule} {m : RawMatch}
    {s : Secret} (h : processMatch ga input rule m = some s) :
    s.text = extractSecret rule m ∧ s.text ≠ [] ∧
    s.«end» = s.start + s.text.length ∧ s.rule = rule.id ∧ s.label = rule.label ∧
    s.start = (match jsIndexOfFrom input (extractSecret rule m) m.index with
               | some i => i
               | none => m.index) := by
  simp only [processMatch] at h
  split at h
  · cases h
  · rename_i hne
    split at h
    · cases h
    · split at h
      · cases h
      · split at h
        · cases h
        · split at h
          · cases h
          · injection h with h2
            subst h2
            refine ⟨rfl, ?_, rfl, rfl, rfl, rfl⟩
            simpa [List.isEmpty_iff] using hne

theorem processMatch_span {ga : GlobalAllowlist} {input : Str} {rule : Rule} {m : RawMatch}
    {s : Secret} (h : processMatch ga input rule m = some s)
    (hg : goodMatch input m = true) :
    (input.drop s.start).take s.text.length = s.text ∧ s.«end» ≤ input.length := by
  obtain ⟨htext, hne, hend, -, -, hstart⟩ := processMatch_basic h
  have hocc : containsSub (input.drop m.index) (extractSecret rule m) = true :=
    extractSecret_occurs rule hg
  unfold containsSub at hocc
  rcases Option.isSome_iff_exists.mp hocc with ⟨k, hk⟩
  have hsound := firstOcc_sound hk
  have hjs : jsIndexOfFrom input (extractSecret rule m) m.index = some (k + m.index) := by
    unfold jsIndexOfFrom
    rw [hk]
    rfl
  rw [hjs] at hstart
  replace hstart : s.start = k + m.index := hstart
  rw [List.drop_drop, ← htext, Nat.add_comm m.index k] at hsound
  constructor
  · rw [hstart]
    exact hsound
  · rw [hend, hstart]
    exact occurrence_bound hne hsound

/-! ### Membership chain: from `scan` output back to a raw match -/

theorem foldl_inv {α β : Type _} {P : β → Prop} {f : β → α → β} :
    ∀ (l : List α) (init : β), P init → (∀ b a, a ∈ l → P b → P (f b a)) →
      P (l.foldl f init) := by
  intro l
  induction l with
  | nil => intro init h _; exact h
  | cons a l ih =>
    intro init h hstep
    exact ih (f init a) (hstep init a (List.mem_cons_self a l) h)
      (fun b x hx hb => hstep b x (List.mem_cons_of_mem a hx) hb)

theorem upsertKeyword_mem {idx : List (Str × List Rule)} {kw : Str} {r0 : Rule}
    {x : Rule} {e : Str × List Rule}
    (he : e ∈ upsertKeyword idx kw r0) (hx : x ∈ e.2) :
    (∃ e2 ∈ idx, x ∈ e2.2) ∨ x = r0 := by
  induction idx with
  | nil =>
    simp only [upsertKeyword, List.mem_singleton] at he
    subst he
    simp only [List.mem_singleton] at hx
    exact Or.inr hx
  | cons hd rest ih =>
    rcases hd with ⟨k, rs⟩
    simp only [upsertKeyword] at he
    split at he
    · rcases List.mem_cons.mp he with rfl | hrest
      · rcases List.mem_append.mp hx with hl | hr
        · exact Or.inl ⟨(k, rs), List.mem_cons_self _ _, hl⟩
        · simp only [List.mem_singleton] at hr
          exact Or.inr hr
      · exact Or.inl ⟨e, List.mem_cons_of_mem _ hrest, hx⟩
    · rcases List.mem_cons.mp he with rfl | hrest
      · exact Or.inl ⟨(k, rs), List.mem_cons_self _ _, hx⟩
      · rcases ih hrest with ⟨e2, he2, hx2⟩ | hr
        · exact Or.inl ⟨e2, List.mem_cons_of_mem _ he2, hx2⟩
        · exact Or.inr hr

theorem keywordIndex_mem {rules : List Rule} {e : Str × List Rule}
    (he : e ∈ keywordIndex rules) : ∀ x ∈ e.2, x ∈ rules := by
  unfold keywordIndex at he
  refine foldl_inv (P := fun (idx : List (Str × List Rule)) => ∀ e2 ∈ idx, ∀ x ∈ e2.2, x ∈ rules) _ _ ?_ ?_ e he
  · intro e2 he2
    simp at he2
  · intro idx r hr hP
    split
    · exact hP
    · refine foldl_inv (P := fun (idx : List (Str × List Rule)) => ∀ e2 ∈ idx, ∀ x ∈ e2.2, x ∈ rules) _ _ hP ?_
      intro idx2 kw _ hP2 e2 he2 x hx
      rcases upsertKeyword_mem he2 hx with ⟨e3, he3, hx3⟩ | rfl
      · exact hP2 e3 he3 x hx3
      · exact hr

theorem getCandidateRules_subset {rules : List Rule} {il : Str} {r : Rule}
    (h : r ∈ getCandidateRules rules il) : r ∈ rules := by
  unfold getCandidateRules at h
  refine foldl_inv (P := fun (cands : List Rule) => ∀ x ∈ cands, x ∈ rules) _ _ ?_ ?_ r h
  · intro x hx
    exact (List.mem_filter.mp hx).1
  · intro cands entry hentry hP
    split
    · refine foldl_inv (P := fun (cands : List Rule) => ∀ x ∈ cands, x ∈ rules) _ _ hP ?_
      intro cands2 r2 hr2 hP2 x hx
      split at hx
      · exact hP2 x hx
      · rcases List.mem_append.mp hx with hl | hr
        · exact hP2 x hl
        · simp only [List.mem_singleton] at hr
          subst hr
          exact keywordIndex_mem hentry x hr2
    · exact hP

theorem acceptNonOverlapping_eq_append (l : List Secret) :
    ∀ acc, ∃ t, acceptNonOverlapping acc l = acc ++ t ∧ t.Sublist l := by
  induction l with
  | nil => exact fun acc => ⟨[], by simp [acceptNonOverlapping], List.nil_sublist _⟩
  | cons c rest ih =>
    intro acc
    unfold acceptNonOverlapping
    split
    · rcases ih acc with ⟨t, ht, hs⟩
      exact ⟨t, ht, hs.cons c⟩
    · rcases ih (acc ++ [c]) with ⟨t, ht, hs⟩
      refine ⟨c :: t, ?_, hs.cons₂ c⟩
      rw [ht, List.append_assoc]
      rfl

theorem mem_acceptNonOverlapping {acc l : List Secret} {x : Secret}
    (h : x ∈ acceptNonOverlapping acc l) : x ∈ acc ∨ x ∈ l := by
  rcases acceptNonOverlapping_eq_append l acc with ⟨t, ht, hs⟩
  rw [ht] at h
  rcases List.mem_append.mp h with hl | hr
  · exact Or.inl hl
  · exact Or.inr (hs.mem hr)

theorem scan_mem {ga : GlobalAllowlist} {rules : List Rule} {input : Str} {s : Secret}
    (h : s ∈ scan ga rules input) :
    ∃ r ∈ rules, ∃ m ∈ r.exec input, processMatch ga input r m = some s := by
  unfold scan at h
  split at h
  · exact absurd h (List.not_mem_nil s)
  · rw [List.mem_insertionSort] at h
    unfold resolveOverlaps at h
    rcases mem_acceptNonOverlapping h with h2 | h2
    · exact absurd h2 (List.not_mem_nil s)
    · rw [List.mem_insertionSort] at h2
      rcases List.mem_flatMap.mp h2 with ⟨r, hrc, hs⟩
      rcases List.mem_filterMap.mp hs with ⟨m, hm, heq⟩
      exact ⟨r, getCandidateRules_subset hrc, m, hm, heq⟩

/-! ### Ordering and disjointness of the output -/

/-- Two accepted spans never intersect: one ends at or before the other
begins. -/
def spansDisjoint (a b : Secret) : Prop := a.«end» ≤ b.start ∨ b.«end» ≤ a.start

theorem pairwise_acceptNonOverlapping (l : List Secret) :
    ∀ acc, List.Pairwise spansDisjoint acc →
      List.Pairwise spansDisjoint (acceptNonOverlapping acc l) := by
  induction l with
  | nil =>
    intro acc h
    simpa [acceptNonOverlapping] using h
  | cons c rest ih =>
    intro acc hacc
    unfold acceptNonOverlapping
    split
    · exact ih acc hacc
    · rename_i hany
      apply ih
      rw [List.pairwise_append]
      refine ⟨hacc, List.pairwise_singleton _ _, ?_⟩
      intro r hr x hx
      simp only [List.mem_singleton] at hx
      subst hx
      rw [List.any_eq_true] at hany
      push_neg at hany
      have hr2 := hany r hr
      have hno : ¬(x.start < r.«end» ∧ x.«end» > r.start) := by
        intro hc
        exact hr2 (by simp [hc.1, hc.2])
      rw [not_and_or, not_lt, not_lt] at hno
      unfold spansDisjoint
      exact hno

theorem scan_sorted (ga : GlobalAllowlist) (rules : List Rule) (input : Str) :
    List.Sorted startLE (scan ga rules input) := by
  unfold scan
  split
  · exact List.sorted_nil
  · exact List.sorted_insertionSort startLE _

theorem scan_pairwise_disjoint (ga : GlobalAllowlist) (rules : List Rule) (input : Str) :
    List.Pairwise spansDisjoint (scan ga rules input) := by
  unfold scan
  split
  · exact List.Pairwise.nil
  · unfold resolveOverlaps
    refine ((List.perm_insertionSort startLE _).pairwise_iff ?_).mpr ?_
    · exact fun h => h.symm
    · exact pairwise_acceptNonOverlapping _ [] List.Pairwise.nil

theorem scan_start_lt_end {ga : GlobalAllowlist} {rules : List Rule} {input : Str}
    {s : Secret} (h : s ∈ scan ga rules input) : s.start < s.«end» := by
  rcases scan_mem h with ⟨r, -, m, -, hpm⟩
  obtain ⟨-, hne, hend, -, -, -⟩ := processMatch_basic hpm
  have := List.length_pos.mpr hne
  omega

/-! ### Concrete fixtures for witness instantiations -/

/-- An empty global allowlist for concrete instantiations. -/
def gaW : GlobalAllowlist := { regexes := [], stopwords := [] }

def inputW : Str := strL "hello KEY123 world"

/-- A concrete rule whose `exec` yields one genuine match of `inputW`. -/
def ruleW : Rule := {
  id := "w-rule"
  label := "W"
  exec := fun s =>
    if s == inputW then
      [{ index := 6, matched := strL "KEY123", groups := [some (strL "KEY123")] }]
    else []
  keywords := [] }

/-- C1: every Secret returned by `scan` satisfies
`0 ≤ start ≤ end ≤ len(input)` and `input[start:end] == text`, for any
corpus whose raw matches are genuine regex matches (under which the
defensive `indexOf` fallback branch is unreachable, so the invariant
covers it vacuously). -/
theorem C1_scan_span_invariant (ga : GlobalAllowlist) (rules : List Rule) (input : Str)
    (hgood : ∀ r ∈ rules, ∀ m ∈ r.exec input, goodMatch input m = true) :
    ∀ s ∈ scan ga rules input,
      s.start ≤ s.«end» ∧ s.«end» ≤ input.length ∧
        (input.take s.«end»).drop s.start = s.text := by
  intro s hs
  rcases scan_mem hs with ⟨r, hr, m, hm, hpm⟩
  obtain ⟨-, -, hend, -, -, -⟩ := processMatch_basic hpm
  obtain ⟨htake, hle⟩ := processMatch_span hpm (hgood r hr m hm)
  refine ⟨by omega, hle, ?_⟩
  rw [List.drop_take, hend, Nat.add_sub_cancel_left]
  exact htake

theorem C1_witness :
    (∀ r ∈ [ruleW], ∀ m ∈ r.exec inputW, goodMatch inputW m = true) ∧
      ∀ s ∈ scan gaW [ruleW] inputW,
        s.start ≤ s.«end» ∧ s.«end» ≤ inputW.length ∧
          (inputW.take s.«end»).drop s.start = s.text :=
  ⟨by decide, C1_scan_span_invariant gaW [ruleW] inputW (by decide)⟩

/-- C2: for every input, the list returned by `scan` is sorted ascending
by `start`, and the `[start, end)` spans of any two returned Secrets do
not intersect: one ends at or before the other begins. -/
theorem C2_scan_sorted_disjoint (ga : GlobalAllowlist) (rules : List Rule) (input : Str) :
    List.Sorted startLE (scan ga rules input) ∧
      List.Pairwise spansDisjoint (scan ga rules input) :=
  ⟨scan_sorted ga rules input, scan_pairwise_disjoint ga rules input⟩

/-! ### Greedy acceptance: soundness and coverage (claim C3) -/

theorem acceptNonOverlapping_covers (l : List Secret) :
    ∀ acc, ∀ c ∈ l, c ∈ acceptNonOverlapping acc l ∨
      ∃ r ∈ acceptNonOverlapping acc l, c.start < r.«end» ∧ c.«end» > r.start := by
  induction l with
  | nil =>
    intro acc c hc
    cases hc
  | cons a rest ih =>
    intro acc c hc
    unfold acceptNonOverlapping
    split
    · rename_i hany
      rcases List.mem_cons.mp hc with rfl | hrest
      · rw [List.any_eq_true] at hany
        rcases hany with ⟨r, hr, hcond⟩
        simp only [Bool.and_eq_true, decide_eq_true_eq] at hcond
        right
        rcases acceptNonOverlapping_eq_append rest acc with ⟨t, ht, -⟩
        exact ⟨r, by rw [ht]; exact List.mem_append_left _ hr, hcond⟩
      · exact ih acc c hrest
    · rcases List.mem_cons.mp hc with rfl | hrest
      · left
        rcases acceptNonOverlapping_eq_append rest (acc ++ [c]) with ⟨t, ht, -⟩
        rw [ht]
        exact List.mem_append_left _ (List.mem_append_right _ (List.mem_singleton.mpr rfl))
      · exact ih (acc ++ [a]) c hrest

theorem acceptNonOverlapping_cons_true {acc : List Secret} {c : Secret} {rest : List Secret}
    (h : acc.any (fun r => decide (c.start < r.«end») && decide (c.«end» > r.start)) = true) :
    acceptNonOverlapping acc (c :: rest) = acceptNonOverlapping acc rest := by
  unfold acceptNonOverlapping
  rw [if_pos h]
  cases rest <;> rfl

theorem acceptNonOverlapping_cons_false {acc : List Secret} {c : Secret} {rest : List Secret}
    (h : acc.any (fun r => decide (c.start < r.«end») && decide (c.«end» > r.start)) = false) :
    acceptNonOverlapping acc (c :: rest) = acceptNonOverlapping (acc ++ [c]) rest := by
  unfold acceptNonOverlapping
  rw [if_neg (by rw [h]; exact Bool.false_ne_true)]
  cases rest <;> rfl

theorem resolveOverlaps_pair {a b : Secret}
    (h1 : a.start ≤ b.start) (h2 : b.«end» ≤ a.«end»)
    (h3 : b.«end» - b.start < a.«end» - a.start) (h4 : b.start < b.«end») :
    resolveOverlaps [a, b] = [a] ∧ resolveOverlaps [b, a] = [a] := by
  have hab : candBefore a b := Or.inl (by omega)
  have hba : ¬ candBefore b a := by
    unfold candBefore
    omega
  have haccept : acceptNonOverlapping [] [a, b] = [a] := by
    rw [acceptNonOverlapping_cons_false (by simp), acceptNonOverlapping_cons_true (by
      simp only [List.nil_append, List.any_cons, List.any_nil, Bool.or_false,
        Bool.and_eq_true, decide_eq_true_eq]
      omega)]
    rfl
  constructor
  · unfold resolveOverlaps
    have hsort : [a, b].insertionSort candBefore = [a, b] := by
      simp only [List.insertionSort, List.orderedInsert]
      rw [if_pos hab]
    rw [hsort, haccept]
  · unfold resolveOverlaps
    have hsort : [b, a].insertionSort candBefore = [a, b] := by
      simp only [List.insertionSort, List.orderedInsert]
      rw [if_neg hba]
    rw [hsort, haccept]

theorem spansDisjoint_symm : Symmetric spansDisjoint := fun _ _ h => h.symm

theorem scan_no_nested_pair {ga : GlobalAllowlist} {rules : List Rule} {input : Str}
    {a b : Secret} (ha : a ∈ scan ga rules input) (hb : b ∈ scan ga rules input)
    (h1 : a.start ≤ b.start) (h2 : b.«end» ≤ a.«end»)
    (h3 : b.«end» - b.start < a.«end» - a.start) : False := by
  have hbpos : b.start < b.«end» := scan_start_lt_end hb
  have hapos : a.start < a.«end» := scan_start_lt_end ha
  have hne : a ≠ b := by
    intro h
    subst h
    omega
  have hdis : spansDisjoint a b :=
    List.Pairwise.forall spansDisjoint_symm (scan_pairwise_disjoint ga rules input) ha hb hne
  unfold spansDisjoint at hdis
  omega

/-- C3: phase 2 of `scan` sorts the pooled candidates by span length
descending with ties broken by smaller start (`candBefore`), stably
(candidates tied under the comparator keep their pool order), then
greedily accepts a candidate exactly when its span does not intersect any
already-accepted span (`a.start < b.end && a.end > b.start`): every
accepted pair is disjoint and every rejected candidate intersects an
accepted one.  Consequently, of two surviving candidates with strictly
nested spans, only the longer can appear in the final output — with a
two-candidate pool exactly the longer one survives, and no two nested
spans ever co-occur in `scan`'s output. -/
theorem C3_overlap_resolution :
    (∀ pool : List Secret, (pool.insertionSort candBefore).Perm pool) ∧
    (∀ pool : List Secret, List.Sorted candBefore (pool.insertionSort candBefore)) ∧
    (∀ (pool : List Secret) (a b : Secret), [a, b].Sublist pool → candBefore a b →
      [a, b].Sublist (pool.insertionSort candBefore)) ∧
    (∀ sorted : List Secret,
      (acceptNonOverlapping [] sorted).Sublist sorted ∧
      List.Pairwise spansDisjoint (acceptNonOverlapping [] sorted) ∧
      ∀ c ∈ sorted, c ∈ acceptNonOverlapping [] sorted ∨
        ∃ r ∈ acceptNonOverlapping [] sorted, c.start < r.«end» ∧ c.«end» > r.start) ∧
    (∀ a b : Secret, a.start ≤ b.start → b.«end» ≤ a.«end» →
      b.«end» - b.start < a.«end» - a.start → b.start < b.«end» →
      resolveOverlaps [a, b] = [a] ∧ resolveOverlaps [b, a] = [a]) ∧
    (∀ (ga : GlobalAllowlist) (rules : List Rule) (input : Str) (a b : Secret),
      a ∈ scan ga rules input → b ∈ scan ga rules input →
      a.start ≤ b.start → b.«end» ≤ a.«end» →
      b.«end» - b.start < a.«end» - a.start → False) := by
  refine ⟨fun pool => List.perm_insertionSort candBefore pool,
    fun pool => List.sorted_insertionSort candBefore pool,
    fun pool a b hsub hab => List.pair_sublist_insertionSort hab hsub,
    fun sorted => ⟨?_, pairwise_acceptNonOverlapping sorted [] List.Pairwise.nil,
      acceptNonOverlapping_covers sorted []⟩,
    fun a b h1 h2 h3 h4 => resolveOverlaps_pair h1 h2 h3 h4,
    fun ga rules input a b ha hb h1 h2 h3 => scan_no_nested_pair ha hb h1 h2 h3⟩
  rcases acceptNonOverlapping_eq_append sorted [] with ⟨t, ht, hs⟩
  rw [ht]
  simpa using hs

def aW3 : Secret :=
  { rule := "a", label := "A", text := strL "abcdef", confidence := .high,
    start := 0, «end» := 6 }

def bW3 : Secret :=
  { rule := "b", label := "B", text := strL "bcd", confidence := .high,
    start := 1, «end» := 4 }

theorem C3_witness :
    (aW3.start ≤ bW3.start ∧ bW3.«end» ≤ aW3.«end» ∧
      bW3.«end» - bW3.start < aW3.«end» - aW3.start ∧ bW3.start < bW3.«end») ∧
      resolveOverlaps [aW3, bW3] = [aW3] :=
  ⟨by decide,
    (C3_overlap_resolution.2.2.2.2.1 aW3 bW3 (by decide) (by decide) (by decide)
      (by decide)).1⟩

/-! ### Allowlist semantics (claim C5) -/

/-- The rule-specific allowlist regexes actually iterated by
`isRuleAllowlisted` (empty when the rule has no allowlist). -/
def ruleAllowRegexes (rule : Rule) : List AllowlistRegex :=
  match rule.allowlist with
  | none => []
  | some al => al.regexes.getD []

/-- The rule-specific allowlist stopwords actually iterated by
`isRuleAllowlisted` (empty when the rule has no allowlist). -/
def ruleAllowStopwords (rule : Rule) : List Str :=
  match rule.allowlist with
  | none => []
  | some al => al.stopwords.getD []

/-- C5: a candidate is rejected by allowlist filtering exactly when some
global allowlist regex matches the secret value, or the secret value
equals some global stopword case-insensitively (exact equality), or some
rule allowlist regex matches its declared target text, or some rule
stopword occurs case-insensitively as a substring of the secret value. -/
theorem C5_allowlist_semantics (ga : GlobalAllowlist) (rule : Rule)
    (secret fullMatch line : Str) :
    (isGlobalAllowlisted ga secret || isRuleAllowlisted rule secret fullMatch line) = true ↔
      ((∃ rx ∈ ga.regexes, rx secret = true) ∨
        (∃ w ∈ ga.stopwords, lowerStr secret = lowerStr w) ∨
        (∃ ar ∈ ruleAllowRegexes rule,
          ar.test (allowTargetText ar secret fullMatch line) = true) ∨
        (∃ w ∈ ruleAllowStopwords rule, ∃ k,
          ((lowerStr secret).drop k).take (lowerStr w).length = lowerStr w)) := by
  have hsub : ∀ w : Str, containsSub (lowerStr secret) (lowerStr w) = true ↔
      ∃ k, ((lowerStr secret).drop k).take (lowerStr w).length = lowerStr w :=
    fun w => containsSub_iff
  cases hal : rule.allowlist with
  | none =>
    simp [isGlobalAllowlisted, isRuleAllowlisted, ruleAllowRegexes, ruleAllowStopwords, hal,
      List.any_eq_true, beq_iff_eq, or_assoc]
  | some al =>
    simp [isGlobalAllowlisted, isRuleAllowlisted, ruleAllowRegexes, ruleAllowStopwords, hal,
      List.any_eq_true, beq_iff_eq, hsub, or_assoc]

/-! ### Placeholder detection semantics (claim C6) -/

/-- The `longestPrefix` fold of `isPlaceholder`, generalized to an
arbitrary prefix list and accumulator for the induction. -/
def longestAcc (secret : Str) (l : List Str) (acc : Str) : Str :=
  l.foldl (fun lp p => if p.isPrefixOf secret && lp.length < p.length then p else lp) acc

theorem longestAcc_cons (secret : Str) (p0 : Str) (l : List Str) (acc : Str) :
    longestAcc secret (p0 :: l) acc =
      longestAcc secret l
        (if p0.isPrefixOf secret && acc.length < p0.length then p0 else acc) := rfl

theorem longestAcc_spec (secret : Str) : ∀ (l : List Str) (acc : Str),
    (longestAcc secret l acc = acc ∨
      (longestAcc secret l acc ∈ l ∧ (longestAcc secret l acc).isPrefixOf secret = true)) ∧
    acc.length ≤ (longestAcc secret l acc).length ∧
    ∀ p ∈ l, p.isPrefixOf secret = true → p.length ≤ (longestAcc secret l acc).length := by
  intro l
  induction l with
  | nil =>
    intro acc
    refine ⟨Or.inl rfl, le_rfl, ?_⟩
    intro p hp
    exact absurd hp (List.not_mem_nil p)
  | cons p0 rest ih =>
    intro acc
    rw [longestAcc_cons]
    by_cases hcond : (p0.isPrefixOf secret && decide (acc.length < p0.length)) = true
    · rw [if_pos hcond]
      rcases Bool.and_eq_true _ _ |>.mp hcond with ⟨hpre, hlt⟩
      rw [decide_eq_true_eq] at hlt
      obtain ⟨hres, hacclen, hmax⟩ := ih p0
      refine ⟨?_, by omega, ?_⟩
      · rcases hres with heq | ⟨hmem, hpre2⟩
        · rw [heq]
          exact Or.inr ⟨List.mem_cons_self _ _, hpre⟩
        · exact Or.inr ⟨List.mem_cons_of_mem _ hmem, hpre2⟩
      · intro p hp hppre
        rcases List.mem_cons.mp hp with rfl | hp2
        · exact hacclen
        · exact hmax p hp2 hppre
    · rw [if_neg hcond]
      obtain ⟨hres, hacclen, hmax⟩ := ih acc
      refine ⟨?_, hacclen, ?_⟩
      · rcases hres with heq | ⟨hmem, hpre2⟩
        · exact Or.inl heq
        · exact Or.inr ⟨List.mem_cons_of_mem _ hmem, hpre2⟩
      · intro p hp hppre
        rcases List.mem_cons.mp hp with rfl | hp2
        · rw [Bool.and_eq_true, decide_eq_true_eq] at hcond
          push_neg at hcond
          have := hcond hppre
          omega
        · exact hmax p hp2 hppre

theorem longestKnownPrefix_spec (secret : Str) :
    (longestKnownPrefix secret = [] ∨
      (longestKnownPrefix secret ∈ KNOWN_PREFIXES ∧
        (longestKnownPrefix secret).isPrefixOf secret = true)) ∧
    ∀ p ∈ KNOWN_PREFIXES, p.isPrefixOf secret = true →
      p.length ≤ (longestKnownPrefix secret).length := by
  have h := longestAcc_spec secret KNOWN_PREFIXES []
  exact ⟨h.1, h.2.2⟩

theorem isPlaceholder_eq (secret : Str) :
    isPlaceholder secret =
      (if (longestKnownPrefix secret).isEmpty then false
       else if (secret.drop (longestKnownPrefix secret).length).isEmpty then true
       else entropyLtQ (secret.drop (longestKnownPrefix secret).length)
         MIN_SUFFIX_ENTROPY) := rfl

/-- C6: the placeholder check finds the longest known provider prefix that
is an exact textual prefix of the secret; with no matching prefix the
candidate passes; with an empty remaining suffix it is rejected;
otherwise it is rejected exactly when the suffix's Shannon entropy is
below the fixed threshold `MIN_SUFFIX_ENTROPY = 1.5`.  In particular a
known prefix followed by a run of one repeated filler character is always
rejected. -/
theorem C6_placeholder_semantics :
    MIN_SUFFIX_ENTROPY = 3 / 2 ∧
    (∀ secret : Str, (∀ p ∈ KNOWN_PREFIXES, p.isPrefixOf secret = false) →
      isPlaceholder secret = false) ∧
    (∀ secret : Str, longestKnownPrefix secret ≠ [] →
      longestKnownPrefix secret ∈ KNOWN_PREFIXES ∧
      (longestKnownPrefix secret).isPrefixOf secret = true ∧
      ∀ p ∈ KNOWN_PREFIXES, p.isPrefixOf secret = true →
        p.length ≤ (longestKnownPrefix secret).length) ∧
    (∀ secret : Str, longestKnownPrefix secret ≠ [] →
      secret.drop (longestKnownPrefix secret).length = [] →
      isPlaceholder secret = true) ∧
    (∀ secret : Str, longestKnownPrefix secret ≠ [] →
      secret.drop (longestKnownPrefix secret).length ≠ [] →
      (isPlaceholder secret = true ↔
        shannonEntropy (secret.drop (longestKnownPrefix secret).length) <
          ((MIN_SUFFIX_ENTROPY : ℚ) : ℝ))) ∧
    (∀ p ∈ KNOWN_PREFIXES, ∀ (c : Char) (n : ℕ), 0 < n →
      isPlaceholder (p ++ List.replicate n c) = true) := by
  refine ⟨rfl, ?_, ?_, ?_, ?_, ?_⟩
  · intro secret h
    rcases (longestKnownPrefix_spec secret).1 with heq | ⟨hmem, hpre⟩
    · rw [isPlaceholder_eq, heq]
      simp
    · rw [h _ hmem] at hpre
      cases hpre
  · intro secret hne
    rcases (longestKnownPrefix_spec secret).1 with heq | ⟨hmem, hpre⟩
    · exact absurd heq hne
    · exact ⟨hmem, hpre, (longestKnownPrefix_spec secret).2⟩
  · intro secret hne hdrop
    rw [isPlaceholder_eq]
    rw [if_neg (by simpa [List.isEmpty_iff] using hne)]
    rw [if_pos (by simpa [List.isEmpty_iff] using hdrop)]
  · intro secret hne hdrop
    rw [isPlaceholder_eq]
    rw [if_neg (by simpa [List.isEmpty_iff] using hne)]
    rw [if_neg (by simpa [List.isEmpty_iff] using hdrop)]
    exact entropyLtQ_iff _ _
  · intro p hp c n hn
    have hpne : p ≠ [] := (show ∀ q ∈ KNOWN_PREFIXES, q ≠ [] by decide) p hp
    have hpre : p.isPrefixOf (p ++ List.replicate n c) = true := by
      rw [ List.isPrefixOf_iff_prefix]
      exact List.prefix_append p _
    have hmax := (longestKnownPrefix_spec (p ++ List.replicate n c)).2 p hp hpre
    have hplen : 0 < p.length := List.length_pos.mpr hpne
    have hlkne : longestKnownPrefix (p ++ List.replicate n c) ≠ [] := by
      intro h0
      rw [h0] at hmax
      simp only [List.length_nil] at hmax
      omega
    rcases (longestKnownPrefix_spec (p ++ List.replicate n c)).1 with heq | ⟨-, hlpre⟩
    · exact absurd heq hlkne
    have hLle : (longestKnownPrefix (p ++ List.replicate n c)).length ≤ p.length + n := by
      have hlen := ( List.isPrefixOf_iff_prefix.mp hlpre).length_le
      simpa using hlen
    have hsuffix : (p ++ List.replicate n c).drop
        (longestKnownPrefix (p ++ List.replicate n c)).length =
        List.replicate (p.length + n - (longestKnownPrefix (p ++ List.replicate n c)).length)
          c := by
      have hsplit : (longestKnownPrefix (p ++ List.replicate n c)).length =
          p.length + ((longestKnownPrefix (p ++ List.replicate n c)).length - p.length) := by
        omega
      rw [hsplit, List.drop_append, List.drop_replicate]
      congr 1
      omega
    rw [isPlaceholder_eq]
    rw [if_neg (by simpa [List.isEmpty_iff] using hlkne)]
    by_cases hemp : ((p ++ List.replicate n c).drop
        (longestKnownPrefix (p ++ List.replicate n c)).length).isEmpty = true
    · rw [if_pos hemp]
    · rw [if_neg hemp]
      rw [hsuffix]
      refine (entropyLtQ_iff _ _).mpr ?_
      rw [shannonEntropy_replicate]
      have : (0 : ℚ) < MIN_SUFFIX_ENTROPY := by norm_num [MIN_SUFFIX_ENTROPY]
      exact_mod_cast this

theorem C6_witness :
    (strL "ghp_" ∈ KNOWN_PREFIXES ∧ 0 < 12) ∧
      isPlaceholder (strL "ghp_" ++ List.replicate 12 'x') = true :=
  ⟨⟨by decide, by decide⟩,
    C6_placeholder_semantics.2.2.2.2.2 (strL "ghp_") (by decide) 'x' 12 (by decide)⟩

/-- C9: `shannonEntropy` computes `H(s) = -Σ p(c)·log2(p(c))` over the
character frequency distribution: the empty string and any run of one
repeated character have entropy 0; a string of `n` distinct equally
frequent characters has entropy `log2 n` (so `"ab"` gives 1 and `"abcd"`
gives 2); and the result is nonnegative for every string. -/
theorem C9_shannonEntropy :
    shannonEntropy [] = 0 ∧
    (∀ (n : ℕ) (c : Char), shannonEntropy (List.replicate n c) = 0) ∧
    (∀ (s : Str) (k : ℕ), s ≠ [] → 0 < k → (∀ c ∈ s.toFinset, s.count c = k) →
      shannonEntropy s = Real.logb 2 (s.toFinset.card)) ∧
    shannonEntropy (strL "ab") = 1 ∧
    shannonEntropy (strL "abcd") = 2 ∧
    (∀ s : Str, 0 ≤ shannonEntropy s) := by
  refine ⟨by simp [shannonEntropy], shannonEntropy_replicate,
    fun s k h1 h2 h3 => shannonEntropy_uniform h1 h2 h3, ?_, ?_, shannonEntropy_nonneg⟩
  · have h := shannonEntropy_uniform (s := strL "ab") (k := 1) (by decide) (by decide)
      (by decide)
    rw [h, show (strL "ab").toFinset.card = 2 from by decide]
    rw [show ((2 : ℕ) : ℝ) = (2 : ℝ) from by norm_num]
    exact Real.logb_self_eq_one one_lt_two
  · have h := shannonEntropy_uniform (s := strL "abcd") (k := 1) (by decide) (by decide)
      (by decide)
    rw [h, show (strL "abcd").toFinset.card = 4 from by decide]
    rw [show ((4 : ℕ) : ℝ) = (2 : ℝ) ^ (2 : ℕ) from by norm_num]
    rw [Real.logb_pow, Real.logb_self_eq_one one_lt_two]
    norm_num

theorem C9_witness :
    (strL "ab" ≠ [] ∧ 0 < 1 ∧ ∀ c ∈ (strL "ab").toFinset, (strL "ab").count c = 1) ∧
      shannonEntropy (strL "ab") = Real.logb 2 ((strL "ab").toFinset.card) :=
  ⟨⟨by decide, by decide, by decide⟩,
    C9_shannonEntropy.2.2.1 (strL "ab") 1 (by decide) (by decide) (by decide)⟩

/-- C8: `scan` and `redact` are total functions (they are Lean `def`s, so
totality is by construction); `scan` returns the empty list immediately
for an empty input, and `redact` returns the input unchanged whenever
`scan` returns no secrets. -/
theorem C8_total_and_empty :
    (∀ (ga : GlobalAllowlist) (rules : List Rule), scan ga rules [] = []) ∧
    (∀ (ga : GlobalAllowlist) (rules : List Rule) (input : Str) (f : Secret → Str),
      scan ga rules input = [] → redact ga rules input f = input) := by
  constructor
  · intro ga rules
    rfl
  · intro ga rules input f h
    simp [redact, h]

theorem C8_witness :
    scan gaW [] (strL "x") = [] ∧
      redact gaW [] (strL "x") (fun s => s.text) = strL "x" :=
  ⟨by decide, C8_total_and_empty.2 gaW [] (strL "x") (fun s => s.text) (by decide)⟩

/-! ### Redaction (claims C7, C10) -/

/-- The specified shape of `redact`'s output: the characters of `input`
outside the secret spans verbatim, interleaved with the replacer's output
for each span, rendered left to right from position `pos`. -/
def spliceRender (input : Str) (replacer : Secret → Str) : Nat → List Secret → Str
  | pos, [] => input.drop pos
  | pos, s :: rest =>
    (input.take s.start).drop pos ++ replacer s ++ spliceRender input replacer s.«end» rest

theorem foldr_splice (input : Str) (f : Secret → Str) : ∀ (l : List Secret),
    List.Pairwise (fun a b => a.«end» ≤ b.start) l →
    (∀ s ∈ l, s.start ≤ s.«end» ∧ s.«end» ≤ input.length) →
    l.foldr (fun secret result =>
      result.take secret.start ++ f secret ++ result.drop secret.«end») input
      = spliceRender input f 0 l := by
  intro l
  induction l with
  | nil =>
    intro _ _
    rfl
  | cons s rest ih =>
    intro hpw hbounds
    have hrest := ih (List.pairwise_cons.mp hpw).2
      (fun x hx => hbounds x (List.mem_cons_of_mem _ hx))
    simp only [List.foldr_cons]
    rw [hrest]
    obtain ⟨hse, hle⟩ := hbounds s (List.mem_cons_self _ _)
    cases rest with
    | nil =>
      simp [spliceRender]
    | cons r rest2 =>
      have hsr : s.«end» ≤ r.start := (List.pairwise_cons.mp hpw).1 r (List.mem_cons_self _ _)
      obtain ⟨hrs, hrl⟩ := hbounds r (List.mem_cons_of_mem _ (List.mem_cons_self _ _))
      have hlen1 : s.start ≤ (input.take r.start).length := by
        simp only [List.length_take]
        omega
      have hlen2 : s.«end» ≤ (input.take r.start).length := by
        simp only [List.length_take]
        omega
      have hA : (spliceRender input f 0 (r :: rest2)).take s.start = input.take s.start := by
        simp only [spliceRender, List.drop_zero]
        rw [List.append_assoc, List.take_append_of_le_length hlen1, List.take_take,
          min_eq_left (by omega)]
      have hB : (spliceRender input f 0 (r :: rest2)).drop s.«end» =
          spliceRender input f s.«end» (r :: rest2) := by
        simp only [spliceRender]
        rw [List.drop_zero, List.append_assoc, List.drop_append_of_le_length hlen2,
          ← List.append_assoc]
      rw [hA, hB]
      simp only [spliceRender, List.drop_zero]

theorem scan_span_props {ga : GlobalAllowlist} {rules : List Rule} {input : Str}
    (hgood : ∀ r ∈ rules, ∀ m ∈ r.exec input, goodMatch input m = true) :
    ∀ s ∈ scan ga rules input,
      s.«end» ≤ input.length ∧ s.«end» = s.start + s.text.length ∧
        (input.drop s.start).take s.text.length = s.text := by
  intro s hs
  rcases scan_mem hs with ⟨r, hr, m, hm, hpm⟩
  obtain ⟨-, -, hend, -, -, -⟩ := processMatch_basic hpm
  obtain ⟨htake, hle⟩ := processMatch_span hpm (hgood r hr m hm)
  exact ⟨hle, hend, htake⟩

theorem scan_chain (ga : GlobalAllowlist) (rules : List Rule) (input : Str) :
    List.Pairwise (fun a b => a.«end» ≤ b.start) (scan ga rules input) := by
  have hcomb := (scan_sorted ga rules input).and (scan_pairwise_disjoint ga rules input)
  refine List.Pairwise.imp_of_mem ?_ hcomb
  intro a b ha hb hab
  have hpa := scan_start_lt_end ha
  have hpb := scan_start_lt_end hb
  rcases hab with ⟨hs, hd⟩
  unfold startLE at hs
  unfold spansDisjoint at hd
  omega

theorem redact_eq_spliceRender (ga : GlobalAllowlist) (rules : List Rule) (input : Str)
    (f : Secret → Str)
    (hgood : ∀ r ∈ rules, ∀ m ∈ r.exec input, goodMatch input m = true) :
    redact ga rules input f = spliceRender input f 0 (scan ga rules input) := by
  simp only [redact]
  split
  · rename_i hemp
    rw [List.isEmpty_iff.mp hemp]
    rfl
  · refine foldr_splice input f _ (scan_chain ga rules input) ?_
    intro s hs
    obtain ⟨hle, hend, -⟩ := scan_span_props hgood s hs
    exact ⟨by omega, hle⟩

/-- C7: for every input and replacer, `redact` leaves every character of
the input outside the returned secret spans verbatim and splices the
replacer's result over each `[start, end)` span (equivalently, it applies
the replacements right-to-left as the code does). -/
theorem C7_redact_splices (ga : GlobalAllowlist) (rules : List Rule) (input : Str)
    (f : Secret → Str)
    (hgood : ∀ r ∈ rules, ∀ m ∈ r.exec input, goodMatch input m = true) :
    redact ga rules input f = spliceRender input f 0 (scan ga rules input) :=
  redact_eq_spliceRender ga rules input f hgood

theorem C7_witness :
    (∀ r ∈ [ruleW], ∀ m ∈ r.exec inputW, goodMatch inputW m = true) ∧
      redact gaW [ruleW] inputW (fun s => strL "[" ++ strL s.rule ++ strL "]")
        = spliceRender inputW (fun s => strL "[" ++ strL s.rule ++ strL "]") 0
            (scan gaW [ruleW] inputW) :=
  ⟨by decide, C7_redact_splices gaW [ruleW] inputW _ (by decide)⟩

theorem spliceRender_text (input : Str) : ∀ (l : List Secret),
    List.Pairwise (fun a b => a.«end» ≤ b.start) l →
    (∀ s ∈ l, s.«end» ≤ input.length ∧ s.«end» = s.start + s.text.length ∧
      (input.drop s.start).take s.text.length = s.text) →
    ∀ pos, (∀ s, l.head? = some s → pos ≤ s.start) → pos ≤ input.length →
      spliceRender input (fun s => s.text) pos l = input.drop pos := by
  intro l
  induction l with
  | nil =>
    intro _ _ pos _ _
    rfl
  | cons s rest ih =>
    intro hpw hprops pos hpos hposle
    obtain ⟨hle, hend, htext⟩ := hprops s (List.mem_cons_self _ _)
    have hps : pos ≤ s.start := hpos s rfl
    have hrest : spliceRender input (fun s => s.text) s.«end» rest = input.drop s.«end» := by
      refine ih (List.pairwise_cons.mp hpw).2
        (fun x hx => hprops x (List.mem_cons_of_mem _ hx)) s.«end» ?_ hle
      intro r hr
      exact (List.pairwise_cons.mp hpw).1 r (List.mem_of_mem_head? hr)
    show (input.take s.start).drop pos ++ s.text ++
        spliceRender input (fun s => s.text) s.«end» rest = input.drop pos
    rw [hrest]
    have hsplit1 : input.drop pos = (input.take s.start).drop pos ++ input.drop s.start := by
      conv_lhs => rw [← List.take_append_drop s.start input]
      rw [List.drop_append_of_le_length (by simp only [List.length_take]; omega)]
    have hsplit2 : input.drop s.start = s.text ++ input.drop s.«end» := by
      conv_lhs => rw [← List.take_append_drop s.text.length (input.drop s.start)]
      rw [htext]
      congr 1
      rw [List.drop_drop]
      congr 1
      omega
    rw [hsplit1, hsplit2, List.append_assoc]

/-- C10: redacting with the identity replacer returns the input
unchanged: `redact(s, secret => secret.text) == s`. -/
theorem C10_redact_identity (ga : GlobalAllowlist) (rules : List Rule) (input : Str)
    (hgood : ∀ r ∈ rules, ∀ m ∈ r.exec input, goodMatch input m = true) :
    redact ga rules input (fun s => s.text) = input := by
  rw [redact_eq_spliceRender ga rules input _ hgood]
  rw [spliceRender_text input (scan ga rules input) (scan_chain ga rules input)
    (scan_span_props hgood) 0 (fun _ _ => Nat.zero_le _) (Nat.zero_le _)]
  rfl

theorem C10_witness :
    (∀ r ∈ [ruleW], ∀ m ∈ r.exec inputW, goodMatch inputW m = true) ∧
      redact gaW [ruleW] inputW (fun s => s.text) = inputW :=
  ⟨by decide, C10_redact_identity gaW [ruleW] inputW (by decide)⟩

/-! ### Filtering before pooling (claim C4)

`scan` consumes each rule only through its data fields and the filtered
image of its raw matches, so a raw match on which `processMatch` returns
`none` (rejected by the entropy, placeholder or allowlist filter)
contributes nothing: deleting it from the rule's match sequence leaves
`scan`'s output unchanged. -/

/-- Equality of all data fields of two rules (everything except `exec`). -/
def ruleSameData (r r2 : Rule) : Prop :=
  r.id = r2.id ∧ r.label = r2.label ∧ r.keywords = r2.keywords ∧
    r.entropy = r2.entropy ∧ r.secretGroup = r2.secretGroup ∧ r.allowlist = r2.allowlist

theorem processMatch_congr {ga : GlobalAllowlist} {input : Str} {r r2 : Rule}
    (h : ruleSameData r r2) (m : RawMatch) :
    processMatch ga input r m = processMatch ga input r2 m := by
  obtain ⟨h1, h2, h3, h4, h5, h6⟩ := h
  unfold processMatch extractSecret isRuleAllowlisted
  rw [h1, h2, h4, h5, h6]

/-- What `scan ga · input` observes of a rule: its data fields and the
filtered image of its raw matches on `input`. -/
def scanEquiv (ga : GlobalAllowlist) (input : Str) (r r2 : Rule) : Prop :=
  ruleSameData r r2 ∧
    (r.exec input).filterMap (processMatch ga input r) =
      (r2.exec input).filterMap (processMatch ga input r2)

theorem scanEquiv_forall₂_refl (ga : GlobalAllowlist) (input : Str) :
    ∀ l : List Rule, List.Forall₂ (scanEquiv ga input) l l := by
  intro l
  induction l with
  | nil => exact List.Forall₂.nil
  | cons a t ih => exact List.Forall₂.cons ⟨⟨rfl, rfl, rfl, rfl, rfl, rfl⟩, rfl⟩ ih

theorem rulesWithoutKeywords_congr {ga : GlobalAllowlist} {input : Str}
    {l₁ l₂ : List Rule} (h : List.Forall₂ (scanEquiv ga input) l₁ l₂) :
    List.Forall₂ (scanEquiv ga input) (rulesWithoutKeywords l₁) (rulesWithoutKeywords l₂) := by
  induction h with
  | nil => exact List.Forall₂.nil
  | cons hr hrest ih =>
    rename_i a b t₁ t₂
    simp only [rulesWithoutKeywords] at ih ⊢
    rw [List.filter_cons, List.filter_cons]
    have hkw : a.keywords = b.keywords := hr.1.2.2.1
    rw [hkw]
    split
    · exact List.Forall₂.cons hr ih
    · exact ih

/-- Pointwise relatedness of two keyword indices: equal keys, related
rule lists. -/
def idxEquiv (ga : GlobalAllowlist) (input : Str)
    (idx₁ idx₂ : List (Str × List Rule)) : Prop :=
  List.Forall₂
    (fun e₁ e₂ => e₁.1 = e₂.1 ∧ List.Forall₂ (scanEquiv ga input) e₁.2 e₂.2) idx₁ idx₂

theorem upsertKeyword_congr {ga : GlobalAllowlist} {input : Str}
    {idx₁ idx₂ : List (Str × List Rule)} (h : idxEquiv ga input idx₁ idx₂)
    (kw : Str) {r r2 : Rule} (hr : scanEquiv ga input r r2) :
    idxEquiv ga input (upsertKeyword idx₁ kw r) (upsertKeyword idx₂ kw r2) := by
  induction h with
  | nil =>
    exact List.Forall₂.cons ⟨rfl, List.Forall₂.cons hr List.Forall₂.nil⟩ List.Forall₂.nil
  | cons he hrest ih =>
    rename_i e₁ e₂ t₁ t₂
    obtain ⟨k1, rs1⟩ := e₁
    obtain ⟨k2, rs2⟩ := e₂
    obtain ⟨hk, hv⟩ := he
    simp only at hk
    subst hk
    simp only [upsertKeyword]
    split
    · exact List.Forall₂.cons ⟨rfl, List.rel_append hv (List.Forall₂.cons hr List.Forall₂.nil)⟩
        hrest
    · exact List.Forall₂.cons ⟨rfl, hv⟩ ih

theorem keywords_foldl_congr {ga : GlobalAllowlist} {input : Str} {r r2 : Rule}
    (hr : scanEquiv ga input r r2) :
    ∀ (kws : List Str) {idx₁ idx₂ : List (Str × List Rule)}, idxEquiv ga input idx₁ idx₂ →
      idxEquiv ga input
        (kws.foldl (fun idx kw => upsertKeyword idx (lowerStr kw) r) idx₁)
        (kws.foldl (fun idx kw => upsertKeyword idx (lowerStr kw) r2) idx₂) := by
  intro kws
  induction kws with
  | nil => exact fun h => h
  | cons kw rest ih =>
    intro idx₁ idx₂ h
    exact ih (upsertKeyword_congr h (lowerStr kw) hr)

theorem keywordIndex_congr {ga : GlobalAllowlist} {input : Str} :
    ∀ {l₁ l₂ : List Rule}, List.Forall₂ (scanEquiv ga input) l₁ l₂ →
      ∀ {idx₁ idx₂ : List (Str × List Rule)}, idxEquiv ga input idx₁ idx₂ →
        idxEquiv ga input
          (l₁.foldl (fun idx r => if r.keywords.isEmpty then idx
            else r.keywords.foldl (fun idx kw => upsertKeyword idx (lowerStr kw) r) idx) idx₁)
          (l₂.foldl (fun idx r => if r.keywords.isEmpty then idx
            else r.keywords.foldl (fun idx kw => upsertKeyword idx (lowerStr kw) r) idx) idx₂) := by
  intro l₁ l₂ h
  induction h with
  | nil => exact fun h2 => h2
  | cons hr hrest ih =>
    intro idx₁ idx₂ h2
    rename_i a b t₁ t₂
    simp only [List.foldl_cons]
    have hkw : a.keywords = b.keywords := hr.1.2.2.1
    rw [hkw]
    split
    · exact ih h2
    · exact ih (hkw ▸ keywords_foldl_congr hr a.keywords h2)

theorem any_id_congr {ga : GlobalAllowlist} {input : Str} :
    ∀ {c₁ c₂ : List Rule}, List.Forall₂ (scanEquiv ga input) c₁ c₂ → ∀ i : String,
      c₁.any (fun c => c.id == i) = c₂.any (fun c => c.id == i) := by
  intro c₁ c₂ h
  induction h with
  | nil => exact fun _ => rfl
  | cons hr hrest ih =>
    intro i
    rename_i a b t₁ t₂
    simp only [List.any_cons, hr.1.1, ih i]

theorem dedup_foldl_congr {ga : GlobalAllowlist} {input : Str} :
    ∀ {e₁ e₂ : List Rule}, List.Forall₂ (scanEquiv ga input) e₁ e₂ →
      ∀ {c₁ c₂ : List Rule}, List.Forall₂ (scanEquiv ga input) c₁ c₂ →
        List.Forall₂ (scanEquiv ga input)
          (e₁.foldl (fun cands r =>
            if cands.any (fun c => c.id == r.id) then cands else cands ++ [r]) c₁)
          (e₂.foldl (fun cands r =>
            if cands.any (fun c => c.id == r.id) then cands else cands ++ [r]) c₂) := by
  intro e₁ e₂ h
  induction h with
  | nil => exact fun h2 => h2
  | cons hr hrest ih =>
    intro c₁ c₂ h2
    rename_i a b t₁ t₂
    simp only [List.foldl_cons]
    rw [any_id_congr h2 a.id, hr.1.1]
    split
    · exact ih h2
    · exact ih (List.rel_append h2 (List.Forall₂.cons hr List.Forall₂.nil))

theorem index_foldl_congr {ga : GlobalAllowlist} {input : Str} {il : Str} :
    ∀ {idx₁ idx₂ : List (Str × List Rule)}, idxEquiv ga input idx₁ idx₂ →
      ∀ {c₁ c₂ : List Rule}, List.Forall₂ (scanEquiv ga input) c₁ c₂ →
        List.Forall₂ (scanEquiv ga input)
          (idx₁.foldl (fun cands entry => if containsSub il entry.1 then
            entry.2.foldl (fun cands r =>
              if cands.any (fun c => c.id == r.id) then cands else cands ++ [r]) cands
            else cands) c₁)
          (idx₂.foldl (fun cands entry => if containsSub il entry.1 then
            entry.2.foldl (fun cands r =>
              if cands.any (fun c => c.id == r.id) then cands else cands ++ [r]) cands
            else cands) c₂) := by
  intro idx₁ idx₂ h
  induction h with
  | nil => exact fun h2 => h2
  | cons he hrest ih =>
    intro c₁ c₂ h2
    rename_i e₁ e₂ t₁ t₂
    simp only [List.foldl_cons]
    rw [he.1]
    split
    · exact ih (dedup_foldl_congr he.2 h2)
    · exact ih h2

theorem getCandidateRules_congr {ga : GlobalAllowlist} {input : Str} {il : Str}
    {l₁ l₂ : List Rule} (h : List.Forall₂ (scanEquiv ga input) l₁ l₂) :
    List.Forall₂ (scanEquiv ga input) (getCandidateRules l₁ il) (getCandidateRules l₂ il) := by
  unfold getCandidateRules
  have hidx : idxEquiv ga input (keywordIndex l₁) (keywordIndex l₂) :=
    keywordIndex_congr h List.Forall₂.nil
  exact index_foldl_congr hidx (rulesWithoutKeywords_congr h)

theorem flatMap_collect_congr {ga : GlobalAllowlist} {input : Str} :
    ∀ {l₁ l₂ : List Rule}, List.Forall₂ (scanEquiv ga input) l₁ l₂ →
      l₁.flatMap (fun r => (r.exec input).filterMap (processMatch ga input r)) =
        l₂.flatMap (fun r => (r.exec input).filterMap (processMatch ga input r)) := by
  intro l₁ l₂ h
  induction h with
  | nil => rfl
  | cons hr hrest ih =>
    simp only [List.flatMap_cons]
    rw [hr.2, ih]

theorem scan_congr {ga : GlobalAllowlist} {input : Str} {l₁ l₂ : List Rule}
    (h : List.Forall₂ (scanEquiv ga input) l₁ l₂) :
    scan ga l₁ input = scan ga l₂ input := by
  unfold scan
  by_cases hin : input.isEmpty = true
  · rw [if_pos hin, if_pos hin]
  · rw [if_neg hin, if_neg hin]
    dsimp only
    rw [flatMap_collect_congr (getCandidateRules_congr h)]

/-- C4: entropy/placeholder/allowlist filtering is applied per raw match
before pooling for overlap resolution, so a rejected match never
suppresses an overlapping valid match: deleting a rejected raw match
(`processMatch … = none`) from its rule's match sequence leaves `scan`'s
output unchanged, as if it had never been emitted. -/
theorem C4_rejected_never_blocks (ga : GlobalAllowlist) (input : Str)
    (pre post : List Rule) (r r2 : Rule) (l₁ l₂ : List RawMatch) (m : RawMatch)
    (hdata : ruleSameData r r2)
    (hexec : r.exec input = l₁ ++ m :: l₂)
    (hexec2 : r2.exec input = l₁ ++ l₂)
    (hrej : processMatch ga input r m = none) :
    scan ga (pre ++ r :: post) input = scan ga (pre ++ r2 :: post) input := by
  apply scan_congr
  refine List.rel_append (scanEquiv_forall₂_refl ga input pre)
    (List.Forall₂.cons ⟨hdata, ?_⟩ (scanEquiv_forall₂_refl ga input post))
  have hpm : processMatch ga input r2 = processMatch ga input r :=
    funext (fun m2 => (processMatch_congr hdata m2).symm)
  rw [hexec, hexec2, hpm, List.filterMap_append, List.filterMap_append]
  congr 1
  rw [List.filterMap_cons]
  rw [hrej]

def inputW4 : Str := strL "x"

/-- A raw match whose extracted secret is empty, so `processMatch`
rejects it. -/
def mBad : RawMatch := { index := 0, matched := strL "x", groups := [some []] }

def rW4 : Rule := {
  id := "c4", label := "C4",
  exec := fun s => if s == inputW4 then [mBad] else [],
  keywords := [] }

def rW4b : Rule := {
  id := "c4", label := "C4",
  exec := fun _ => [],
  keywords := [] }

theorem C4_witness :
    (rW4.exec inputW4 = [] ++ mBad :: [] ∧ rW4b.exec inputW4 = [] ++ [] ∧
      processMatch gaW inputW4 rW4 mBad = none) ∧
      scan gaW ([] ++ rW4 :: []) inputW4 = scan gaW ([] ++ rW4b :: []) inputW4 :=
  ⟨⟨by decide, rfl, by decide⟩,
    C4_rejected_never_blocks gaW inputW4 [] [] rW4 rW4b [] [] mBad
      ⟨rfl, rfl, rfl, rfl, rfl, rfl⟩ (by decide) rfl (by decide)⟩
